import Mathlib

/-!
Shallow embedding of the reconciliation and classification core of the
shift-tracker dashboard (src/docs/app.js), together with theorems that settle
the specification claims about it.

Conventions of the embedding:
* JavaScript strings are Lean `String`s; `toLowerCase` is modelled
  character-wise, `includes` as infix containment of the character lists.
* A JavaScript value that can be `null`/`undefined` or a string is modelled as
  `Option String` when the code distinguishes the two (strict equality versus
  truthiness), and as `String` with `""` for the missing case when the code
  only ever tests truthiness.
* JavaScript numbers are modelled as exact rationals `ℚ`; `Math.round`,
  `Math.min`, `Math.max`, `Math.ceil` are modelled exactly on `ℚ`/`ℤ`.
* JavaScript objects used as dictionaries are modelled either as association
  lists (when insertion order matters) or as functions to `Option` (when only
  lookup matters).
-/

/-- Character-wise lowercasing, the model of `String.prototype.toLowerCase`
for the ASCII keywords the classifiers match against. -/
def toLowerStr (s : String) : String :=
  ⟨s.data.map Char.toLower⟩

/-- Auxiliary for `strIncludes`: `pat` occurs contiguously in `s`. -/
def hasInfix (s pat : List Char) : Bool :=
  match s with
  | [] => pat.isPrefixOf ([] : List Char)
  | _ :: t => pat.isPrefixOf s || hasInfix t pat

/-- Model of `String.prototype.includes`: `pat` occurs contiguously in `s`. -/
def strIncludes (s pat : String) : Bool :=
  hasInfix s.data pat.data

/-- Model of `String.prototype.startsWith`. -/
def strStartsWith (s pat : String) : Bool :=
  pat.data.isPrefixOf s.data

/-- Translation of `getAssenzaAbbr` (src/docs/app.js lines 34-45).  The
argument is `Option String`: `none` models `null`/`undefined`, and the JS
falsiness test `!dettaglio` also catches the empty string. -/
def getAssenzaAbbr (dettaglio : Option String) : String :=
  match dettaglio with
  | none => "Riposo"
  | some s =>
    if s = "" then "Riposo"
    else
      let d := toLowerStr s
      if strIncludes d "riposo settimanale" then "RS"
      else if strIncludes d "riposo festivita" then "RF"
      else if strIncludes d "recupero" && strIncludes d "riposo" && strIncludes d "settimanale" then "RRS"
      else if strIncludes d "recupero" && strIncludes d "riposo" && strIncludes d "festivita" then "RRF"
      else if strIncludes d "recupero" && strIncludes d "ore" then "RO"
      else if strIncludes d "licenza ordinaria" then "LO"
      else if strIncludes d "licenza straordinaria" then "LS"
      else "Riposo"

/-- Translation of `getPresenzaAbbr` (src/docs/app.js lines 48-56). -/
def getPresenzaAbbr (dettaglio : Option String) : String :=
  match dettaglio with
  | none => "Servizio"
  | some s =>
    if s = "" then "Servizio"
    else
      let d := toLowerStr s
      if strIncludes d "esterno" then "Esterno"
      else if strIncludes d "operativ" then "Operativo"
      else if strIncludes d "istituzional" then "Istituz."
      else if strIncludes d "pratiche" || strIncludes d "disbrigo" || strIncludes d "ufficio" then "Ufficio"
      else "Servizio"

/-- Translation of `getAssenzaLabel` (src/docs/app.js lines 59-70). -/
def getAssenzaLabel (dettaglio : Option String) : String :=
  match dettaglio with
  | none => "Riposo"
  | some s =>
    if s = "" then "Riposo"
    else
      let d := toLowerStr s
      if strIncludes d "riposo settimanale" then "Riposo Settimanale"
      else if strIncludes d "riposo festivita" then "Riposo Festivita\x27"
      else if strIncludes d "recupero" && strIncludes d "riposo" && strIncludes d "settimanale" then "Rec. Riposo Sett."
      else if strIncludes d "recupero" && strIncludes d "riposo" && strIncludes d "festivita" then "Rec. Riposo Fest."
      else if strIncludes d "recupero" && strIncludes d "ore" then "Recupero Ore"
      else if strIncludes d "licenza ordinaria" then "Licenza Ordinaria"
      else if strIncludes d "licenza straordinaria" then "Licenza Straord."
      else "Riposo"

/-- The empty string includes no nonempty pattern. -/
lemma strIncludes_empty_cons (c : Char) (cs : List Char) :
    strIncludes "" ⟨c :: cs⟩ = false := rfl

/-- Lowercasing the empty string yields the empty string. -/
lemma toLowerStr_empty : toLowerStr "" = "" := rfl

/-- C2 (counterexample): the detail string "Recupero riposo settimanale"
contains the keywords "recupero", "riposo" and "settimanale" jointly (after
lowercasing), yet `getAssenzaAbbr` classifies it as "RS" (plain weekly rest),
not as the recovered-weekly-rest code "RRS", because the contiguous pattern
"riposo settimanale" is checked first. -/
theorem getAssenzaAbbr_joint_keywords_not_RRS :
    (strIncludes (toLowerStr "Recupero riposo settimanale") "recupero" = true ∧
     strIncludes (toLowerStr "Recupero riposo settimanale") "riposo" = true ∧
     strIncludes (toLowerStr "Recupero riposo settimanale") "settimanale" = true) ∧
    getAssenzaAbbr (some "Recupero riposo settimanale") = "RS" ∧
    getAssenzaAbbr (some "Recupero riposo settimanale") ≠ "RRS" := by
  refine ⟨⟨by decide, by decide, by decide⟩, by decide, by decide⟩

/-- C2 (amended): if a detail string contains "recupero", "riposo" and
"settimanale" jointly (after lowercasing), `getAssenzaAbbr` never returns the
generic recovery-of-hours code "RO"; and it returns the recovered-weekly-rest
code "RRS" provided neither of the earlier contiguous patterns
"riposo settimanale" and "riposo festivita" occurs in the string. -/
theorem getAssenzaAbbr_recupero_riposo_settimanale (s : String)
    (h1 : strIncludes (toLowerStr s) "recupero" = true)
    (h2 : strIncludes (toLowerStr s) "riposo" = true)
    (h3 : strIncludes (toLowerStr s) "settimanale" = true) :
    getAssenzaAbbr (some s) ≠ "RO" ∧
    (strIncludes (toLowerStr s) "riposo settimanale" = false →
     strIncludes (toLowerStr s) "riposo festivita" = false →
     getAssenzaAbbr (some s) = "RRS") := by
  have hs : s ≠ "" := by
    intro h
    rw [h, toLowerStr_empty] at h1
    exact absurd h1 (by decide)
  constructor
  · show getAssenzaAbbr (some s) ≠ "RO"
    simp only [getAssenzaAbbr, if_neg hs]
    rcases hrs : strIncludes (toLowerStr s) "riposo settimanale" with _ | _ <;>
      rcases hrf : strIncludes (toLowerStr s) "riposo festivita" with _ | _ <;>
        simp [hrs, hrf, h1, h2, h3]
  · intro h4 h5
    simp only [getAssenzaAbbr, if_neg hs]
    simp [h1, h2, h3, h4, h5]

/-- C2 (witness for the amended theorem at a concrete input): the string
"recupero riposo annuale settimanale" contains the three keywords but neither
contiguous composite pattern, and is classified "RRS". -/
theorem getAssenzaAbbr_recupero_riposo_settimanale_witness :
    getAssenzaAbbr (some "recupero riposo annuale settimanale") = "RRS" :=
  (getAssenzaAbbr_recupero_riposo_settimanale "recupero riposo annuale settimanale"
    (by decide) (by decide) (by decide)).2 (by decide) (by decide)

/-- One shift interval inside a day, the model of the `turni` objects of
src/docs/app.js (fields as created by `saveManualEntry` and consumed by the
renderers).  `dettaglio` is `Option String` because the renderers pass it to
the classifiers where `null`/`undefined` matters. -/
structure Turno where
  id : String
  tipo : String
  dettaglio : Option String
  matricola : String
  data : String
  ora_inizio : String
  ora_fine : String
  durata_ore : ℚ
  is_straordinario : Bool
  ore_ordinarie : ℚ
  ore_straordinario : ℚ
  email_date : String
  email_id : String
  stato : String
deriving DecidableEq

/-- One calendar day's record, the model of the `giornate` objects of
src/docs/app.js.  `data` is `Option String` because the code distinguishes a
`null`/`undefined` date (never strictly equal to any string) from the empty
string (strictly equal to the empty-string override key, but falsy). -/
structure Giornata where
  data : Option String
  turni : List Turno
  ore_totali : ℚ
  ore_ordinarie : ℚ
  ore_straordinario : ℚ
  is_licenza : Bool
  tipo_licenza : String
  isManual : Bool
deriving DecidableEq

/-- Translation of `mergeManualEntries` (src/docs/app.js lines 170-182): for
each `(dateStr, entry)` of the override store (an association list in object
iteration order), append `entry` to the day list unless some day already in
the accumulated list has `data` strictly equal to `dateStr`; a feed record is
never replaced or modified. -/
def mergeManualEntries (feed : List Giornata) (ov : List (String × Giornata)) :
    List Giornata :=
  ov.foldl
    (fun acc p => if acc.any (fun g => g.data == some p.1) then acc else acc ++ [p.2])
    feed

/-- The override store is coherent when each stored record carries the date it
is keyed under — the invariant maintained by `saveManualEntry`, which stores
`manualEntries[dateStr] = { data: dateStr, ... }`. -/
def OverrideCoherent (ov : List (String × Giornata)) : Prop :=
  ∀ p ∈ ov, p.2.data = some p.1

/-- The merge only ever appends: the feed is left unchanged at the front of
the output, whatever the override store contains. -/
lemma mergeManualEntries_take (feed : List Giornata) (ov : List (String × Giornata)) :
    (mergeManualEntries feed ov).take feed.length = feed := by
  suffices h : ∀ (l : List (String × Giornata)) (acc : List Giornata),
      (l.foldl (fun acc p =>
        if acc.any (fun g => g.data == some p.1) then acc else acc ++ [p.2]) acc).take
        acc.length = acc by
    exact h ov feed
  intro l
  induction l with
  | nil => intro acc; simp
  | cons p t ih =>
    intro acc
    simp only [List.foldl_cons]
    by_cases hc : acc.any (fun g => g.data == some p.1) = true
    · rw [if_pos hc]; exact ih acc
    · rw [if_neg hc]
      have h1 := ih (acc ++ [p.2])
      have h2 : acc.length ≤ (acc ++ [p.2]).length := by simp
      calc (List.foldl _ (acc ++ [p.2]) t).take acc.length
          = ((List.foldl (fun acc p =>
              if acc.any (fun g => g.data == some p.1) then acc else acc ++ [p.2])
              (acc ++ [p.2]) t).take (acc ++ [p.2]).length).take acc.length := by
            rw [List.take_take]
            congr 1
            exact (min_eq_left h2).symm
        _ = (acc ++ [p.2]).take acc.length := by rw [h1]
        _ = acc := by simp [List.take_left]

/-- Characterization of the merge under override coherence and key
distinctness (both are invariants of the JavaScript object store): the output
is the feed followed by exactly those override records whose key matches no
feed date. -/
lemma mergeManualEntries_aux (l : List (String × Giornata)) :
    ∀ acc : List Giornata, OverrideCoherent l → (l.map Prod.fst).Nodup →
    l.foldl
      (fun acc p => if acc.any (fun g => g.data == some p.1) then acc else acc ++ [p.2])
      acc =
    acc ++ (l.filter (fun p => !(acc.any (fun g => g.data == some p.1)))).map Prod.snd := by
  induction l with
  | nil => intro acc _ _; simp
  | cons p t ih =>
    intro acc hco hnd
    have hcop : p.2.data = some p.1 := hco p (List.mem_cons_self p t)
    have hcot : OverrideCoherent t := fun q hq => hco q (List.mem_cons_of_mem p hq)
    have hndt : (t.map Prod.fst).Nodup := (List.nodup_cons.mp hnd).2
    have hnotin : p.1 ∉ t.map Prod.fst := (List.nodup_cons.mp hnd).1
    simp only [List.foldl_cons]
    by_cases hc : acc.any (fun g => g.data == some p.1) = true
    · rw [if_pos hc, ih acc hcot hndt]
      have : (List.filter (fun q => !(acc.any (fun g => g.data == some q.1))) (p :: t)) =
          t.filter (fun q => !(acc.any (fun g => g.data == some q.1))) := by
        rw [List.filter_cons_of_neg]
        simp [hc]
      rw [this]
    · rw [if_neg hc, ih (acc ++ [p.2]) hcot hndt]
      have hfil : t.filter (fun q => !((acc ++ [p.2]).any (fun g => g.data == some q.1))) =
          t.filter (fun q => !(acc.any (fun g => g.data == some q.1))) := by
        apply List.filter_congr
        intro q hq
        have hne : p.1 ≠ q.1 := by
          intro h
          exact hnotin (h ▸ List.mem_map_of_mem Prod.fst hq)
        simp only [List.any_append, List.any_cons, List.any_nil, Bool.or_false]
        have : (p.2.data == some q.1) = false := by
          rw [hcop]
          simp [hne]
        rw [this, Bool.or_false]
      rw [hfil]
      have hfilc : (List.filter (fun q => !(acc.any (fun g => g.data == some q.1))) (p :: t)) =
          p :: t.filter (fun q => !(acc.any (fun g => g.data == some q.1))) := by
        rw [List.filter_cons_of_pos]
        simp [hc]
      rw [hfilc]
      simp

/-- Characterization of the merge under override coherence and key
distinctness (both are invariants of the JavaScript object store): the output
is the feed followed by exactly those override records whose key matches no
feed date. -/
lemma mergeManualEntries_eq (feed : List Giornata) (ov : List (String × Giornata))
    (hnd : (ov.map Prod.fst).Nodup) (hco : OverrideCoherent ov) :
    mergeManualEntries feed ov =
      feed ++ (ov.filter
        (fun p => !(feed.any (fun g => g.data == some p.1)))).map Prod.snd :=
  mergeManualEntries_aux ov feed hco hnd

/-- Day-record constructor used by the concrete witnesses: a day with the
given date and total hours and no shifts. -/
def mkDay (d : Option String) (tot : ℚ) : Giornata :=
  { data := d, turni := [], ore_totali := tot, ore_ordinarie := 0,
    ore_straordinario := 0, is_licenza := false, tipo_licenza := "",
    isManual := false }

/-- C1: feed precedence in reconciliation.  Under the store invariants (keys
distinct, each override record dated by its key), if a date occurs both as a
feed record's date and as an override key then the feed segment of the output
is unchanged and the override record is not appended; if the date occurs only
as an override key, the override record appears in the output unchanged. -/
theorem merge_feed_precedence (feed : List Giornata) (ov : List (String × Giornata))
    (hnd : (ov.map Prod.fst).Nodup) (hco : OverrideCoherent ov)
    (d : String) (rec : Giornata) (hmem : (d, rec) ∈ ov) :
    ((∃ g ∈ feed, g.data = some d) →
      (mergeManualEntries feed ov).take feed.length = feed ∧
      rec ∉ (mergeManualEntries feed ov).drop feed.length) ∧
    ((∀ g ∈ feed, g.data ≠ some d) → rec ∈ mergeManualEntries feed ov) := by
  have hrec : rec.data = some d := hco (d, rec) hmem
  rw [mergeManualEntries_eq feed ov hnd hco]
  constructor
  · intro hex
    constructor
    · exact List.take_left feed _
    · rw [List.drop_left feed _]
      intro hin
      obtain ⟨p, hpf, hsnd⟩ := List.mem_map.mp hin
      obtain ⟨hpov, hpred⟩ := List.mem_filter.mp hpf
      have hpd : p.1 = d := by
        have := hco p hpov
        rw [hsnd, hrec] at this
        exact (Option.some_injective String this).symm
      obtain ⟨g, hg, hgd⟩ := hex
      have : feed.any (fun g => g.data == some p.1) = true :=
        List.any_eq_true.mpr ⟨g, hg, by rw [hgd, hpd]; exact beq_self_eq_true _⟩
      rw [this] at hpred
      exact absurd hpred (by decide)
  · intro hall
    apply List.mem_append_right
    refine List.mem_map.mpr ⟨(d, rec), ?_, rfl⟩
    apply List.mem_filter.mpr
    refine ⟨hmem, ?_⟩
    have : feed.any (fun g => g.data == some d) = false := by
      rw [List.any_eq_false]
      intro g hg
      simpa using hall g hg
    simp [this]

/-- Concrete feed used by the reconciliation witnesses: one day sourced from
the feed with date 2025-03-01 and 8 total hours. -/
def feedW : List Giornata := [mkDay (some "2025-03-01") 8]

/-- Concrete override store used by the reconciliation witnesses: an override
for 2025-03-01 (date also in the feed) and one for 2025-03-02 (date absent
from the feed). -/
def ovW : List (String × Giornata) :=
  [("2025-03-01", mkDay (some "2025-03-01") 0),
   ("2025-03-02", mkDay (some "2025-03-02") 6)]

/-- C1 (witness): with the concrete feed and overrides above, the feed record
for 2025-03-01 (totalHours 8) survives, the override for that date
(totalHours 0) is not appended, and the override for 2025-03-02 appears in
the output. -/
theorem merge_feed_precedence_witness :
    ((mergeManualEntries feedW ovW).take feedW.length = feedW ∧
     mkDay (some "2025-03-01") 0 ∉ (mergeManualEntries feedW ovW).drop feedW.length) ∧
    mkDay (some "2025-03-02") 6 ∈ mergeManualEntries feedW ovW := by
  constructor
  · exact (merge_feed_precedence feedW ovW (by decide)
      (by intro p hp; fin_cases hp <;> rfl) "2025-03-01"
      (mkDay (some "2025-03-01") 0) (by decide)).1
      ⟨mkDay (some "2025-03-01") 8, by decide, rfl⟩
  · exact (merge_feed_precedence feedW ovW (by decide)
      (by intro p hp; fin_cases hp <;> rfl) "2025-03-02"
      (mkDay (some "2025-03-02") 6) (by decide)).2 (by decide)

/-- A day list has pairwise distinct (non-null) dates when no two entries
carry the same string date. -/
def distinctDates (l : List Giornata) : Prop :=
  l.Pairwise (fun a b => a.data = none ∨ a.data ≠ b.data)

/-- C5: reconciliation never produces two day records with the same date.
Under the store invariants and a feed with distinct dates (the feed is keyed
by unique date), the merged output has pairwise distinct dates. -/
theorem merge_distinctDates (feed : List Giornata) (ov : List (String × Giornata))
    (hnd : (ov.map Prod.fst).Nodup) (hco : OverrideCoherent ov)
    (hfeed : distinctDates feed) :
    distinctDates (mergeManualEntries feed ov) := by
  rw [mergeManualEntries_eq feed ov hnd hco]
  rw [distinctDates, List.pairwise_append]
  refine ⟨hfeed, ?_, ?_⟩
  · have hkeys : ov.Pairwise (fun p q => p.1 ≠ q.1) := List.pairwise_map.mp hnd
    have hkeysf : (ov.filter
        (fun p => !(feed.any (fun g => g.data == some p.1)))).Pairwise
        (fun p q => p.1 ≠ q.1) := hkeys.filter _
    rw [List.pairwise_map]
    refine hkeysf.imp_of_mem ?_
    intro p q hp hq hne
    right
    have hcp := hco p (List.mem_of_mem_filter hp)
    have hcq := hco q (List.mem_of_mem_filter hq)
    rw [hcp, hcq]
    intro h
    exact hne (Option.some_injective String h)
  · intro a ha b hb
    obtain ⟨p, hpf, rfl⟩ := List.mem_map.mp hb
    obtain ⟨hpov, hpred⟩ := List.mem_filter.mp hpf
    by_cases hda : a.data = none
    · exact Or.inl hda
    · right
      intro heq
      have hany : feed.any (fun g => g.data == some p.1) = false := by
        cases h : feed.any (fun g => g.data == some p.1)
        · rfl
        · rw [h] at hpred; exact absurd hpred (by decide)
      have := List.any_eq_false.mp hany a ha
      rw [heq, hco p hpov] at this
      simp at this

/-- C5 (witness): the merge of the concrete feed and overrides above has
pairwise distinct dates. -/
theorem merge_distinctDates_witness :
    distinctDates (mergeManualEntries feedW ovW) :=
  merge_distinctDates feedW ovW (by decide)
    (by intro p hp; fin_cases hp <;> rfl)
    (by simp [feedW, distinctDates])

/-- Translation of the calendar-grid day filter (src/docs/app.js lines
414-420): only records whose `data` is truthy (neither `null`/`undefined` nor
the empty string) and starts with the month key enter the date-keyed
`giornateMap`. -/
def calendarGiornate (gs : List Giornata) (monthStr : String) : List Giornata :=
  gs.filter (fun g =>
    match g.data with
    | none => false
    | some s => !(s == "") && strStartsWith s monthStr)

/-- C8 (amended): records with a `null` date never match any override key in
reconciliation (with an all-null-date feed every override is appended), and
records with a `null` or empty-string date are excluded from the calendar's
date-keyed structure; however an empty-string feed date does match an
empty-string override key in reconciliation (see the counterexample). -/
theorem null_dates_never_collide :
    (∀ (feed : List Giornata) (ov : List (String × Giornata)),
      (ov.map Prod.fst).Nodup → OverrideCoherent ov →
      (∀ g ∈ feed, g.data = none) →
      mergeManualEntries feed ov = feed ++ ov.map Prod.snd) ∧
    (∀ (gs : List Giornata) (m : String) (g : Giornata),
      g ∈ calendarGiornate gs m → g.data ≠ none ∧ g.data ≠ some "") := by
  constructor
  · intro feed ov hnd hco hnull
    rw [mergeManualEntries_eq feed ov hnd hco]
    congr 1
    have : ov.filter (fun p => !(feed.any (fun g => g.data == some p.1))) = ov := by
      apply List.filter_eq_self.mpr
      intro p _
      have : feed.any (fun g => g.data == some p.1) = false := by
        rw [List.any_eq_false]
        intro g hg
        rw [hnull g hg]
        simp
      simp [this]
    rw [this]
  · intro gs m g hg
    have hpred := (List.mem_filter.mp hg).2
    cases hd : g.data with
    | none => rw [hd] at hpred; simp at hpred
    | some s =>
      refine ⟨by simp [hd], ?_⟩
      intro h
      have hs : s = "" := Option.some_injective String h
      rw [hd, hs] at hpred
      simp at hpred

/-- Feed day with a `null` date, used by the C8 witness. -/
def gNullDate : Giornata := mkDay none 8

/-- C8 (witness): with a feed whose only record has a `null` date, the
override for 2025-03-02 is appended (no collision), and a record with a real
date passes the calendar filter's exclusion guarantee. -/
theorem null_dates_never_collide_witness :
    mergeManualEntries [gNullDate] [("2025-03-02", mkDay (some "2025-03-02") 6)] =
      [gNullDate] ++ [mkDay (some "2025-03-02") 6] ∧
    ((mkDay (some "2025-03-05") 4).data ≠ none ∧
     (mkDay (some "2025-03-05") 4).data ≠ some "") := by
  constructor
  · exact null_dates_never_collide.1 [gNullDate]
      [("2025-03-02", mkDay (some "2025-03-02") 6)]
      (by decide) (by intro p hp; fin_cases hp; rfl) (by decide)
  · exact null_dates_never_collide.2 [mkDay (some "2025-03-05") 4] "2025-03"
      (mkDay (some "2025-03-05") 4) (by decide)

/-- Feed day whose date is the empty string, used by the C8 counterexample. -/
def gEmptyDate : Giornata := mkDay (some "") 8

/-- C8 (counterexample): a feed record whose date is the empty string does
match — and suppress — an override stored under the empty-string key: the
override record (total hours 6) is absent from the reconciled output. -/
theorem empty_date_suppresses_empty_key_override :
    mergeManualEntries [gEmptyDate] [("", mkDay (some "") 6)] = [gEmptyDate] ∧
    mkDay (some "") 6 ∉ mergeManualEntries [gEmptyDate] [("", mkDay (some "") 6)] := by
  constructor
  · rfl
  · decide

/-- Content of the day-detail panel as a pure view: either an absence label
or the list of shift rows plus the day's hour totals. -/
inductive DayDetail where
  | assenza (label : String) : DayDetail
  | servizio (rows : List (String × String × ℚ))
      (oreTotali oreOrdinarie oreStraordinario : ℚ) : DayDetail
deriving DecidableEq

/-- Translation of the active-shift filter of `showDayDetail`
(src/docs/app.js line 525): shifts whose `stato` is "eliminato" are dropped. -/
def turniAttivi (g : Giornata) : List Turno :=
  g.turni.filter (fun t => !(t.stato == "eliminato"))

/-- Translation of the data content rendered by `showDayDetail`
(src/docs/app.js lines 523-560): the first *active* shift decides between the
absence label and the shift rows; rows are drawn from active shifts only and
totals from the day record's aggregate fields. -/
def showDayDetailView (g : Giornata) : DayDetail :=
  let ta := turniAttivi g
  let isAssenza := match ta.head? with
    | some t => t.tipo == "ASSENZA"
    | none => false
  if isAssenza then
    DayDetail.assenza (getAssenzaLabel (ta.head?.bind Turno.dettaglio))
  else
    DayDetail.servizio (ta.map (fun t => (t.ora_inizio, t.ora_fine, t.durata_ore)))
      g.ore_totali g.ore_ordinarie g.ore_straordinario

/-- A day record with its removed shifts erased from storage. -/
def eraseEliminati (g : Giornata) : Giornata :=
  { g with turni := turniAttivi g }

/-- Translation of the per-row shift kind of `exportCSV` (src/docs/app.js
line 855): the *first* shift's `tipo`, whatever its `stato`, with "N/D" when
there is no first shift or its kind is empty/falsy. -/
def exportRowTipo (g : Giornata) : String :=
  match g.turni.head? with
  | some t => if t.tipo = "" then "N/D" else t.tipo
  | none => "N/D"

/-- Translation of the type badge of `renderGiornataItem` (src/docs/app.js
lines 332-367) for non-leave days: the *first* shift, whatever its `stato`,
decides between the absence abbreviation and the presence abbreviation. -/
def giornataItemBadge (g : Giornata) : String :=
  if g.is_licenza then "LO"
  else
    match g.turni.head? with
    | some t =>
      if t.tipo == "ASSENZA" then getAssenzaAbbr t.dettaglio
      else getPresenzaAbbr t.dettaglio
    | none => ""

/-- C6 (amended): removed ("eliminato") shifts are excluded from the
day-detail view — erasing them from storage does not change what the panel
shows — and they remain present in the stored record: reconciliation returns
every feed record, shifts included, unchanged at the front of its output.
The list items and export rows do *not* exclude removed shifts (see the
counterexample). -/
theorem removed_shifts_invisible_in_day_detail :
    (∀ g : Giornata, showDayDetailView (eraseEliminati g) = showDayDetailView g) ∧
    (∀ (feed : List Giornata) (ov : List (String × Giornata)),
      (mergeManualEntries feed ov).take feed.length = feed) := by
  constructor
  · intro g
    have hta : turniAttivi (eraseEliminati g) = turniAttivi g := by
      simp [turniAttivi, eraseEliminati, List.filter_filter]
    simp only [showDayDetailView, hta]
    simp [eraseEliminati]
  · exact mergeManualEntries_take

/-- Shift used in the C6 counterexample: a removed absence shift. -/
def turnoEliminato : Turno :=
  { id := "t1", tipo := "ASSENZA", dettaglio := some "Riposo settimanale",
    matricola := "000000", data := "2025-04-01", ora_inizio := "00:00",
    ora_fine := "23:59", durata_ore := 0, is_straordinario := false,
    ore_ordinarie := 0, ore_straordinario := 0, email_date := "",
    email_id := "", stato := "eliminato" }

/-- Shift used in the C6 counterexample: an active presence shift. -/
def turnoAttivo : Turno :=
  { id := "t2", tipo := "PRESENZA", dettaglio := some "Servizio esterno",
    matricola := "000000", data := "2025-04-01", ora_inizio := "08:00",
    ora_fine := "14:00", durata_ore := 6, is_straordinario := false,
    ore_ordinarie := 6, ore_straordinario := 0, email_date := "",
    email_id := "", stato := "attivo" }

/-- Day whose first stored shift is removed and whose second is active. -/
def giornataConEliminato : Giornata :=
  { data := some "2025-04-01", turni := [turnoEliminato, turnoAttivo],
    ore_totali := 6, ore_ordinarie := 6, ore_straordinario := 0,
    is_licenza := false, tipo_licenza := "", isManual := false }

/-- C6 (counterexample): removed shifts are *not* excluded from the export
rows and list items: for a day whose first stored shift is removed, the CSV
row kind and the list-item badge are computed from the removed shift, so they
change when the removed shift is erased — the removed shift is visible in
those outputs. -/
theorem removed_shift_visible_in_export_and_list :
    exportRowTipo giornataConEliminato = "ASSENZA" ∧
    exportRowTipo (eraseEliminati giornataConEliminato) = "PRESENZA" ∧
    giornataItemBadge giornataConEliminato ≠
      giornataItemBadge (eraseEliminati giornataConEliminato) := by
  refine ⟨rfl, by decide, by decide⟩

/-- One historical status record of a leave request, the model of the
`licenze` objects of src/docs/app.js.  `data_inizio` is a `String` with `""`
standing for a missing/falsy value, because the code only ever guards it by
truthiness before using it; `data_fine` is `Option String` because the code
distinguishes absence from presence. -/
structure Licenza where
  tipo : String
  data_inizio : String
  data_fine : Option String
  stato : String
deriving DecidableEq

/-- Translation of the `statoPriority` lookup table of `renderLicenze`
(src/docs/app.js line 614), with the `|| 0` default for unknown statuses. -/
def statoPriority (s : String) : Nat :=
  if s = "Approvata" then 5
  else if s = "Rifiutata" then 4
  else if s = "Annullata" then 3
  else if s = "Validata" then 2
  else if s = "Presentata" then 1
  else 0

/-- Translation of the dedup key template of src/docs/app.js lines 618 and
680: the string `tipo + "_" + data_inizio`. -/
def licenzaKey (l : Licenza) : String :=
  l.tipo ++ "_" ++ l.data_inizio

/-- Splitting a character list at a separator that occurs in neither tail is
unambiguous. -/
lemma sep_split_inj (sep : Char) :
    ∀ (a x b y : List Char), sep ∉ b → sep ∉ y →
    a ++ sep :: b = x ++ sep :: y → a = x ∧ b = y := by
  intro a
  induction a with
  | nil =>
    intro x b y hb hy h
    cases x with
    | nil => simpa using h
    | cons c xt =>
      simp only [List.nil_append, List.cons_append, List.cons.injEq] at h
      exfalso
      apply hb
      rw [h.2]
      exact List.mem_append_right xt (List.mem_cons_self sep y)
  | cons c at' ih =>
    intro x b y hb hy h
    cases x with
    | nil =>
      simp only [List.cons_append, List.nil_append, List.cons.injEq] at h
      exfalso
      apply hy
      rw [← h.2]
      exact List.mem_append_right at' (List.mem_cons_self sep b)
    | cons c2 xt =>
      simp only [List.cons_append, List.cons.injEq] at h
      obtain ⟨he, ht⟩ := h
      obtain ⟨h1, h2⟩ := ih xt b y hb hy ht
      exact ⟨by rw [he, h1], h2⟩

/-- The dedup key is injective on pairs whose date component is free of the
underscore separator (always true of ISO `YYYY-MM-DD` dates). -/
lemma licenzaKey_inj (t1 d1 t2 d2 : String)
    (h1 : '_' ∉ d1.data) (h2 : '_' ∉ d2.data)
    (h : t1 ++ "_" ++ d1 = t2 ++ "_" ++ d2) : t1 = t2 ∧ d1 = d2 := by
  have hd : t1.data ++ '_' :: d1.data = t2.data ++ '_' :: d2.data := by
    have := congrArg String.data h
    simpa [String.data_append] using this
  obtain ⟨ha, hb⟩ := sep_split_inj '_' t1.data t2.data d1.data d2.data h1 h2 hd
  exact ⟨String.ext ha, String.ext hb⟩

/-- Translation of the body of the dedup loop of `renderLicenze`
(src/docs/app.js lines 616-623), acting on the key-indexed dictionary
`licenzeByKey` (modelled as a lookup function): records with a falsy
`data_inizio` are skipped; otherwise the stored record for the key is
replaced when the incoming record's status has strictly higher priority. -/
def dedupStep (m : String → Option Licenza) (l : Licenza) : String → Option Licenza :=
  if l.data_inizio = "" then m
  else
    match m (licenzaKey l) with
    | none => fun k => if k = licenzaKey l then some l else m k
    | some existing =>
      if statoPriority l.stato > statoPriority existing.stato then
        fun k => if k = licenzaKey l then some l else m k
      else m

/-- Translation of the dedup pass of `renderLicenze` (src/docs/app.js lines
612-623): fold the records over an initially empty dictionary. -/
def dedupLicenze (ls : List Licenza) : String → Option Licenza :=
  ls.foldl dedupStep (fun _ => none)

/-- Spec-side selection step: keep the incoming record only when its status
priority is strictly higher than the kept one's. -/
def pickHigher (acc : Option Licenza) (l : Licenza) : Option Licenza :=
  match acc with
  | none => some l
  | some e => if statoPriority l.stato > statoPriority e.stato then some l else some e

/-- Spec-side: the highest status priority occurring in a group. -/
def maxPrio (g : List Licenza) : Nat :=
  g.foldl (fun m l => max m (statoPriority l.stato)) 0

/-- Spec-side selection, following the spec's words: the record of the group
whose status has the highest priority, ties resolved by keeping the first
record encountered in input order. -/
def selectCurrent (g : List Licenza) : Option Licenza :=
  g.find? (fun l => statoPriority l.stato == maxPrio g)

lemma le_foldl_max (g : List Licenza) :
    ∀ a : Nat, a ≤ g.foldl (fun m l => max m (statoPriority l.stato)) a := by
  induction g with
  | nil => intro a; simp
  | cons x t ih =>
    intro a
    simp only [List.foldl_cons]
    exact le_trans (le_max_left a (statoPriority x.stato)) (ih _)

lemma maxPrio_append_singleton (g : List Licenza) (a : Licenza) :
    maxPrio (g ++ [a]) = max (maxPrio g) (statoPriority a.stato) := by
  simp [maxPrio]

lemma mem_le_maxPrio (g : List Licenza) :
    ∀ x ∈ g, statoPriority x.stato ≤ maxPrio g := by
  induction g using List.reverseRecOn with
  | nil => intro x hx; simp at hx
  | append_singleton t a ih =>
    intro x hx
    rw [maxPrio_append_singleton]
    rcases List.mem_append.mp hx with h | h
    · exact le_trans (ih x h) (le_max_left _ _)
    · rw [List.mem_singleton.mp h]
      exact le_max_right _ _

lemma exists_mem_maxPrio (g : List Licenza) (hne : g ≠ []) :
    ∃ x ∈ g, statoPriority x.stato = maxPrio g := by
  induction g using List.reverseRecOn with
  | nil => exact absurd rfl hne
  | append_singleton t a ih =>
    rw [maxPrio_append_singleton]
    by_cases hle : maxPrio t ≤ statoPriority a.stato
    · exact ⟨a, List.mem_append_right t (List.mem_singleton_self a),
        (max_eq_right hle).symm⟩
    · push_neg at hle
      have hte : t ≠ [] := by
        intro h
        rw [h] at hle
        simp [maxPrio] at hle
      obtain ⟨x, hx, hxp⟩ := ih hte
      exact ⟨x, List.mem_append_left [a] hx,
        by rw [hxp, max_eq_left (le_of_lt hle)]⟩

/-- The code's strict-replacement fold over a group equals the spec's
selection: the first record of the group achieving the maximal priority. -/
lemma foldl_pickHigher_eq (g : List Licenza) :
    g.foldl pickHigher none = selectCurrent g := by
  induction g using List.reverseRecOn with
  | nil => simp [selectCurrent]
  | append_singleton t a ih =>
    rw [List.foldl_append, List.foldl_cons, List.foldl_nil, ih]
    cases hfind : selectCurrent t with
    | none =>
      have hte : t = [] := by
        by_contra hne
        obtain ⟨x, hx, hxp⟩ := exists_mem_maxPrio t hne
        have := List.find?_eq_none.mp hfind x hx
        simp [hxp] at this
      subst hte
      simp [pickHigher, selectCurrent, maxPrio]
    | some e =>
      have hep : statoPriority e.stato = maxPrio t := by
        have := List.find?_some hfind
        simpa using this
      rw [selectCurrent] at hfind ⊢
      rw [maxPrio_append_singleton, List.find?_append]
      by_cases hgt : statoPriority a.stato > statoPriority e.stato
      · have hmax : max (maxPrio t) (statoPriority a.stato) = statoPriority a.stato :=
          max_eq_right (le_of_lt (hep ▸ hgt))
        rw [hmax]
        have hnone : t.find? (fun l => statoPriority l.stato == statoPriority a.stato)
            = none := by
          rw [List.find?_eq_none]
          intro x hx
          have hle : statoPriority x.stato ≤ maxPrio t := mem_le_maxPrio t x hx
          have hlt : statoPriority x.stato < statoPriority a.stato :=
            lt_of_le_of_lt hle (hep ▸ hgt)
          simp [Nat.ne_of_lt hlt]
        rw [hnone]
        simp [pickHigher, hgt]
      · have hmax : max (maxPrio t) (statoPriority a.stato) = maxPrio t := by
          apply max_eq_left
          rw [← hep]
          exact Nat.le_of_not_lt hgt
        rw [hmax, hfind]
        simp [pickHigher, hgt]

/-- Group fold over the dictionary: looking up the key `t ++ "_" ++ d` in the
dedup result is the strict-replacement fold over the `(tipo, data_inizio) =
(t, d)` group, provided `d` is a nonempty underscore-free date and all record
dates are underscore-free. -/
lemma dedupLicenze_fold_key (t d : String) (hd : d ≠ "") (hdu : '_' ∉ d.data) :
    ∀ (ls : List Licenza) (m : String → Option Licenza),
    (∀ l ∈ ls, '_' ∉ l.data_inizio.data) →
    (ls.foldl dedupStep m) (t ++ "_" ++ d) =
      (ls.filter (fun l => l.tipo == t && l.data_inizio == d)).foldl pickHigher
        (m (t ++ "_" ++ d)) := by
  intro ls
  induction ls with
  | nil => intro m _; rfl
  | cons l rest ih =>
    intro m hlu
    have hlul : '_' ∉ l.data_inizio.data := hlu l (List.mem_cons_self l rest)
    have hlur : ∀ x ∈ rest, '_' ∉ x.data_inizio.data :=
      fun x hx => hlu x (List.mem_cons_of_mem l hx)
    simp only [List.foldl_cons]
    by_cases hempty : l.data_inizio = ""
    · have hstep : dedupStep m l = m := by rw [dedupStep, if_pos hempty]
      have hfil : (l :: rest).filter (fun l => l.tipo == t && l.data_inizio == d) =
          rest.filter (fun l => l.tipo == t && l.data_inizio == d) := by
        rw [List.filter_cons_of_neg]
        simp only [Bool.and_eq_true, beq_iff_eq, not_and]
        intro _
        rw [hempty]
        exact fun h => hd h.symm
      rw [hstep, hfil]
      exact ih m hlur
    · by_cases hkey : licenzaKey l = t ++ "_" ++ d
      · obtain ⟨ht, hdi⟩ := licenzaKey_inj l.tipo l.data_inizio t d hlul hdu hkey
        have hstep : (dedupStep m l) (t ++ "_" ++ d) =
            pickHigher (m (t ++ "_" ++ d)) l := by
          rw [dedupStep, if_neg hempty, hkey]
          cases hmk : m (t ++ "_" ++ d) with
          | none => simp [pickHigher]
          | some e =>
            by_cases hgt : statoPriority l.stato > statoPriority e.stato
            · simp [pickHigher, hgt]
            · simp [pickHigher, hgt, hmk]
        have hfil : (l :: rest).filter (fun l => l.tipo == t && l.data_inizio == d) =
            l :: rest.filter (fun l => l.tipo == t && l.data_inizio == d) := by
          rw [List.filter_cons_of_pos]
          simp [ht, hdi]
        rw [hfil, List.foldl_cons, ← hstep]
        exact ih (dedupStep m l) hlur
      · have hnot : ¬(l.tipo = t ∧ l.data_inizio = d) := by
          intro ⟨h1, h2⟩
          exact hkey (by rw [licenzaKey, h1, h2])
        have hne : (t ++ "_" ++ d) ≠ licenzaKey l := fun h => hkey h.symm
        have hstep : (dedupStep m l) (t ++ "_" ++ d) = m (t ++ "_" ++ d) := by
          rw [dedupStep, if_neg hempty]
          cases hmk : m (licenzaKey l) with
          | none => simp [hne]
          | some e =>
            by_cases hgt : statoPriority l.stato > statoPriority e.stato
            · simp [hgt, hne]
            · simp [hgt]
        have hfil : (l :: rest).filter (fun l => l.tipo == t && l.data_inizio == d) =
            rest.filter (fun l => l.tipo == t && l.data_inizio == d) := by
          rw [List.filter_cons_of_neg]
          simp only [Bool.and_eq_true, beq_iff_eq]
          exact hnot
        rw [hfil, ih (dedupStep m l) hlur, hstep]

/-- C3: leave-request deduplication.  For nonempty underscore-free dates (ISO
dates always are), the record the dedup dictionary holds for the identity key
`(tipo, data_inizio) = (t, d)` is exactly the spec's selection over the
group: the record with the highest status priority under Approvata(5) >
Rifiutata(4) > Annullata(3) > Validata(2) > Presentata(1) > unknown(0), ties
keeping the first record in input order. -/
theorem dedupLicenze_selects_current (ls : List Licenza) (t d : String)
    (hd : d ≠ "") (hdu : '_' ∉ d.data)
    (hlu : ∀ l ∈ ls, '_' ∉ l.data_inizio.data) :
    dedupLicenze ls (t ++ "_" ++ d) =
      selectCurrent (ls.filter (fun l => l.tipo == t && l.data_inizio == d)) := by
  rw [dedupLicenze, dedupLicenze_fold_key t d hd hdu ls _ hlu, foldl_pickHigher_eq]

/-- Lifecycle records of the claim's concrete example: one request of type A
starting 2025-01-10 seen as Presentata, then Approvata, then Validata. -/
def licsW : List Licenza :=
  [⟨"A", "2025-01-10", none, "Presentata"⟩,
   ⟨"A", "2025-01-10", none, "Approvata"⟩,
   ⟨"A", "2025-01-10", none, "Validata"⟩]

/-- C3 (witness): the example input resolves key A_2025-01-10 to the
Approvata record. -/
theorem dedupLicenze_selects_current_witness :
    dedupLicenze licsW ("A" ++ "_" ++ "2025-01-10") =
      some ⟨"A", "2025-01-10", none, "Approvata"⟩ :=
  (dedupLicenze_selects_current licsW "A" "2025-01-10"
    (by decide) (by decide) (by decide)).trans (by decide)

/-- A status that keeps a request pending (src/docs/app.js line 679). -/
def isPendingStato (s : String) : Bool :=
  s == "Presentata" || s == "Validata"

/-- A terminal status (src/docs/app.js lines 683-684). -/
def isTerminaleStato (s : String) : Bool :=
  s == "Approvata" || s == "Annullata" || s == "Rifiutata"

/-- Translation of the `hasResolved` check of `checkPendingLicenze`
(src/docs/app.js lines 681-685): some record in the whole raw sequence with
the same `tipo` and `data_inizio` has a terminal status. -/
def hasResolved (ls : List Licenza) (l : Licenza) : Bool :=
  ls.any (fun x => x.tipo == l.tipo && x.data_inizio == l.data_inizio &&
    isTerminaleStato x.stato)

/-- Body of the `checkPendingLicenze` loop (src/docs/app.js lines 677-690),
acting on the key set of the `pendingByDate` dictionary (modelled as a
duplicate-free key list; the stored value is irrelevant to the alert, which
only counts keys). -/
def checkPendingStep (ls : List Licenza) (acc : List String) (l : Licenza) :
    List String :=
  if isPendingStato l.stato && !(l.data_inizio == "") then
    if hasResolved ls l then acc
    else if acc.contains (licenzaKey l) then acc else acc ++ [licenzaKey l]
  else acc

/-- Translation of `checkPendingLicenze` (src/docs/app.js lines 676-691): the
set of keys flagged pending. -/
def checkPendingKeys (ls : List Licenza) : List String :=
  ls.foldl (checkPendingStep ls) []

lemma checkPendingStep_mem (ls : List Licenza) (acc : List String) (l : Licenza)
    (k : String) :
    k ∈ checkPendingStep ls acc l ↔
      k ∈ acc ∨ (isPendingStato l.stato = true ∧ l.data_inizio ≠ "" ∧
        hasResolved ls l = false ∧ licenzaKey l = k) := by
  rw [checkPendingStep]
  by_cases h1 : (isPendingStato l.stato && !(l.data_inizio == "")) = true
  · rw [if_pos h1]
    obtain ⟨hp, hne⟩ := Bool.and_eq_true_iff.mp h1
    have hne' : l.data_inizio ≠ "" := by simpa using hne
    by_cases h2 : hasResolved ls l = true
    · rw [if_pos h2]
      constructor
      · exact Or.inl
      · rintro (h | ⟨_, _, hres, _⟩)
        · exact h
        · rw [h2] at hres; cases hres
    · rw [if_neg h2]
      have h2' : hasResolved ls l = false := by
        cases h : hasResolved ls l
        · rfl
        · exact absurd h h2
      by_cases h3 : acc.contains (licenzaKey l) = true
      · rw [if_pos h3]
        constructor
        · exact Or.inl
        · rintro (h | ⟨_, _, _, hk⟩)
          · exact h
          · rw [← hk]
            simpa using h3
      · rw [if_neg h3]
        rw [List.mem_append, List.mem_singleton]
        constructor
        · rintro (h | h)
          · exact Or.inl h
          · exact Or.inr ⟨hp, hne', h2', h.symm⟩
        · rintro (h | ⟨_, _, _, hk⟩)
          · exact Or.inl h
          · exact Or.inr hk.symm
  · rw [if_neg h1]
    constructor
    · exact Or.inl
    · rintro (h | ⟨hp, hne, _, _⟩)
      · exact h
      · exfalso
        apply h1
        rw [Bool.and_eq_true_iff]
        exact ⟨hp, by simpa using hne⟩

lemma checkPendingKeys_mem_aux (ls : List Licenza) (k : String) :
    ∀ (rest : List Licenza) (acc : List String),
    (k ∈ rest.foldl (checkPendingStep ls) acc ↔
      k ∈ acc ∨ ∃ l ∈ rest, isPendingStato l.stato = true ∧ l.data_inizio ≠ "" ∧
        hasResolved ls l = false ∧ licenzaKey l = k) := by
  intro rest
  induction rest with
  | nil => intro acc; simp
  | cons l t ih =>
    intro acc
    rw [List.foldl_cons, ih (checkPendingStep ls acc l), checkPendingStep_mem]
    constructor
    · rintro ((h | h) | ⟨x, hx, hc⟩)
      · exact Or.inl h
      · exact Or.inr ⟨l, List.mem_cons_self l t, h⟩
      · exact Or.inr ⟨x, List.mem_cons_of_mem l hx, hc⟩
    · rintro (h | ⟨x, hx, hc⟩)
      · exact Or.inl (Or.inl h)
      · rcases List.mem_cons.mp hx with rfl | hxt
        · exact Or.inl (Or.inr hc)
        · exact Or.inr ⟨x, hxt, hc⟩

/-- C4: pending-alert computation.  For a nonempty underscore-free date `d`,
the key `t ++ "_" ++ d` is flagged pending if and only if some raw record of
the `(t, d)` group has status Presentata or Validata and no record anywhere
in the raw input with the same `tipo` and `data_inizio` has a terminal status
(Approvata, Annullata or Rifiutata); in particular adding a terminal record
for the key anywhere in the input clears the flag. -/
theorem checkPendingKeys_iff (ls : List Licenza) (t d : String)
    (hd : d ≠ "") (hdu : '_' ∉ d.data)
    (hlu : ∀ l ∈ ls, '_' ∉ l.data_inizio.data) :
    (t ++ "_" ++ d) ∈ checkPendingKeys ls ↔
      ((∃ l ∈ ls, l.tipo = t ∧ l.data_inizio = d ∧
          (l.stato = "Presentata" ∨ l.stato = "Validata")) ∧
        ¬∃ x ∈ ls, x.tipo = t ∧ x.data_inizio = d ∧
          (x.stato = "Approvata" ∨ x.stato = "Annullata" ∨ x.stato = "Rifiutata")) := by
  rw [checkPendingKeys, checkPendingKeys_mem_aux ls (t ++ "_" ++ d) ls []]
  simp only [List.not_mem_nil, false_or]
  constructor
  · rintro ⟨l, hl, hp, hne, hres, hk⟩
    obtain ⟨ht, hdi⟩ :=
      licenzaKey_inj l.tipo l.data_inizio t d (hlu l hl) hdu hk
    refine ⟨⟨l, hl, ht, hdi, ?_⟩, ?_⟩
    · have hp' := hp
      simp only [isPendingStato, Bool.or_eq_true, beq_iff_eq] at hp'
      exact hp'
    · rintro ⟨x, hx, hxt, hxd, hxs⟩
      have hfalse := List.any_eq_false.mp hres x hx
      apply hfalse
      simp only [Bool.and_eq_true, beq_iff_eq]
      refine ⟨⟨hxt.trans ht.symm, hxd.trans hdi.symm⟩, ?_⟩
      rcases hxs with h | h | h <;> simp [isTerminaleStato, h]
  · rintro ⟨⟨l, hl, ht, hdi, hs⟩, hnores⟩
    refine ⟨l, hl, ?_, ?_, ?_, ?_⟩
    · rcases hs with h | h <;> simp [isPendingStato, h]
    · rw [hdi]; exact hd
    · apply List.any_eq_false.mpr
      intro x hx habs
      simp only [Bool.and_eq_true, beq_iff_eq] at habs
      obtain ⟨⟨hxt, hxd⟩, hterm⟩ := habs
      have hterm' : x.stato = "Approvata" ∨ x.stato = "Annullata" ∨
          x.stato = "Rifiutata" := by
        simpa [isTerminaleStato, or_assoc] using hterm
      exact hnores ⟨x, hx, hxt.trans ht, hxd.trans hdi, hterm'⟩
    · rw [licenzaKey, ht, hdi]

/-- Single pending record for type B starting 2025-02-01, used by the C4
witness. -/
def licPendB : Licenza := ⟨"B", "2025-02-01", none, "Presentata"⟩

/-- Terminal record for the same key, used by the C4 witness. -/
def licRifB : Licenza := ⟨"B", "2025-02-01", none, "Rifiutata"⟩

/-- C4 (witness): with only the Presentata record the key B_2025-02-01 is
flagged pending; adding the Rifiutata record to the raw input clears the
flag. -/
theorem checkPendingKeys_iff_witness :
    ("B" ++ "_" ++ "2025-02-01") ∈ checkPendingKeys [licPendB] ∧
    ("B" ++ "_" ++ "2025-02-01") ∉ checkPendingKeys [licPendB, licRifB] := by
  constructor
  · exact (checkPendingKeys_iff [licPendB] "B" "2025-02-01"
      (by decide) (by decide) (by decide)).mpr
      ⟨⟨licPendB, List.mem_singleton_self licPendB, rfl, rfl, Or.inl rfl⟩,
        by decide⟩
  · intro h
    have hc := (checkPendingKeys_iff [licPendB, licRifB] "B" "2025-02-01"
      (by decide) (by decide) (by decide)).mp h
    exact hc.2 ⟨licRifB, List.mem_cons_of_mem licPendB (List.mem_singleton_self licRifB),
      rfl, rfl, Or.inr (Or.inr rfl)⟩

/-- Numeric value of a decimal digit character. -/
def digitVal (c : Char) : Int :=
  (c.toNat : Int) - ((48 : Nat) : Int)

/-- Parse an ISO `YYYY-MM-DD` date string into year, month, day.  Any other
shape yields `none` (an invalid Date/NaN in JavaScript; such values are
outside the scope of the claims, which concern well-formed ISO dates). -/
def parseISODate (s : String) : Option (Int × Int × Int) :=
  match s.data with
  | [y1, y2, y3, y4, s1, m1, m2, s2, d1, d2] =>
    if y1.isDigit && y2.isDigit && y3.isDigit && y4.isDigit && s1 == '-' &&
       m1.isDigit && m2.isDigit && s2 == '-' && d1.isDigit && d2.isDigit then
      some (1000 * digitVal y1 + 100 * digitVal y2 + 10 * digitVal y3 + digitVal y4,
            10 * digitVal m1 + digitVal m2,
            10 * digitVal d1 + digitVal d2)
    else none
  | _ => none

/-- Days since the Unix epoch of a proleptic-Gregorian civil date (Howard
Hinnant's algorithm, with floor division), which is exactly the day count in
the UTC timestamp ECMAScript's `new Date("YYYY-MM-DD")` denotes. -/
def daysFromCivil (y m d : Int) : Int :=
  let yAdj := if m ≤ 2 then y - 1 else y
  let era := Int.fdiv yAdj 400
  let yoe := yAdj - era * 400
  let mp := if m > 2 then m - 3 else m + 9
  let doy := Int.fdiv (153 * mp + 2) 5 + d - 1
  let doe := yoe * 365 + Int.fdiv yoe 4 - Int.fdiv yoe 100 + doy
  era * 146097 + doe - 719468

/-- Day number of an ISO date string; unparseable strings (NaN dates in the
JavaScript source, outside the claims' scope) map to day 0. -/
def dayNumber (s : String) : Int :=
  match parseISODate s with
  | some (y, m, d) => daysFromCivil y m d
  | none => 0

/-- Model of `new Date(s).getTime()` for ISO date strings: milliseconds since
the epoch. -/
def jsDateMs (s : String) : Int :=
  dayNumber s * 86400000

/-- Model of `Math.ceil(a / b)` for a nonnegative integer `a` and positive
integer `b`. -/
def ceilDiv (a b : Nat) : Nat :=
  (a + b - 1) / b

/-- Truthiness of an optional string in JavaScript: present and nonempty. -/
def optTruthy (o : Option String) : Bool :=
  match o with
  | none => false
  | some s => !(s == "")

/-- Translation of the per-request day count of `updateSettingsInfo`
(src/docs/app.js lines 1059-1069): with both dates present,
`Math.ceil(Math.abs(end - start) / 86400000) + 1`; with only a start date, 1
day; with no start date, no contribution. -/
def countGiorniLicenza (l : Licenza) : Int :=
  if !(l.data_inizio == "") && optTruthy l.data_fine then
    let diffTime := (jsDateMs (l.data_fine.getD "") - jsDateMs l.data_inizio).natAbs
    (ceilDiv diffTime 86400000 : Nat) + 1
  else if !(l.data_inizio == "") then 1
  else 0

/-- Translation of the `licenzeByDate` dedup of `updateSettingsInfo`
(src/docs/app.js lines 1047-1056): keep the first record seen for each
`data_inizio`. -/
def dedupByDataInizio (ls : List Licenza) : List Licenza :=
  ls.foldl
    (fun acc l =>
      if acc.any (fun x => x.data_inizio == l.data_inizio) then acc else acc ++ [l])
    []

/-- Translation of the filter of `updateSettingsInfo` (src/docs/app.js line
1050): approved ordinary leaves whose start date begins with the current
year. -/
def licenzeOrdinarieAnno (ls : List Licenza) (year : String) : List Licenza :=
  ls.filter (fun l => l.tipo == "ordinaria" && l.stato == "Approvata" &&
    strStartsWith l.data_inizio year)

/-- Translation of the `giorniUsati` accumulation of `updateSettingsInfo`. -/
def giorniUsati (ls : List Licenza) (year : String) : Int :=
  (dedupByDataInizio (licenzeOrdinarieAnno ls year)).foldl
    (fun acc l => acc + countGiorniLicenza l) 0

/-- Translation of `giorniRimanenti = settings.giorniLicenzaAnnuale -
giorniUsati` (src/docs/app.js line 1072). -/
def giorniRimanenti (allowance : Int) (ls : List Licenza) (year : String) : Int :=
  allowance - giorniUsati ls year

/-- Spec-side inclusive day count of one leave request: the number of
calendar days between start and end inclusive, 1 when no end date. -/
def inclusiveDayCount (l : Licenza) : Int :=
  match l.data_fine with
  | some f => if f = "" then 1 else (dayNumber f - dayNumber l.data_inizio).natAbs + 1
  | none => 1

/-- Spec-side used-days total: the sum of the inclusive day counts over the
deduplicated approved ordinary leaves of the year. -/
def specUsedDays (ls : List Licenza) (year : String) : Int :=
  ((dedupByDataInizio (licenzeOrdinarieAnno ls year)).map inclusiveDayCount).sum

lemma strStartsWith_empty_false (year : String) (hy : year ≠ "") :
    strStartsWith "" year = false := by
  rw [strStartsWith]
  cases hc : year.data with
  | nil =>
    exfalso
    exact hy (String.ext (by rw [hc]))
  | cons c cs => rfl

lemma ceilDiv_mul_self (D : Nat) : ceilDiv (D * 86400000) 86400000 = D := by
  rw [ceilDiv]
  have h1 : D * 86400000 + 86400000 - 1 = 86399999 + 86400000 * D := by omega
  rw [h1, Nat.add_mul_div_left _ _ (by norm_num : 0 < 86400000)]
  norm_num

lemma countGiorniLicenza_eq_inclusive (l : Licenza) (h : l.data_inizio ≠ "") :
    countGiorniLicenza l = inclusiveDayCount l := by
  have hb : (!(l.data_inizio == "")) = true := by simp [h]
  cases hf : l.data_fine with
  | none => simp [countGiorniLicenza, inclusiveDayCount, hf, optTruthy, hb]
  | some f =>
    by_cases hfe : f = ""
    · subst hfe
      simp [countGiorniLicenza, inclusiveDayCount, hf, optTruthy, hb]
    · have hof : optTruthy (some f) = true := by simp [optTruthy, hfe]
      rw [countGiorniLicenza, inclusiveDayCount]
      rw [hf]
      simp only [hb, hof, Bool.and_self, if_true, Option.getD_some, if_neg hfe]
      have habs : (jsDateMs f - jsDateMs l.data_inizio).natAbs =
          (dayNumber f - dayNumber l.data_inizio).natAbs * 86400000 := by
        rw [jsDateMs, jsDateMs, ← Int.sub_mul, Int.natAbs_mul]
        rfl
      rw [habs, ceilDiv_mul_self]

lemma dedupByDataInizio_mem (ls : List Licenza) :
    ∀ x ∈ dedupByDataInizio ls, x ∈ ls := by
  suffices h : ∀ (rest : List Licenza) (acc : List Licenza) (x : Licenza),
      x ∈ rest.foldl
        (fun acc l =>
          if acc.any (fun y => y.data_inizio == l.data_inizio) then acc else acc ++ [l])
        acc → x ∈ acc ∨ x ∈ rest by
    intro x hx
    rcases h ls [] x hx with hmem | hmem
    · exact absurd hmem (List.not_mem_nil x)
    · exact hmem
  intro rest
  induction rest with
  | nil => intro acc x hx; exact Or.inl hx
  | cons l t ih =>
    intro acc x hx
    rw [List.foldl_cons] at hx
    by_cases hc : acc.any (fun y => y.data_inizio == l.data_inizio) = true
    · rw [if_pos hc] at hx
      rcases ih acc x hx with hmem | hmem
      · exact Or.inl hmem
      · exact Or.inr (List.mem_cons_of_mem l hmem)
    · rw [if_neg hc] at hx
      rcases ih (acc ++ [l]) x hx with hmem | hmem
      · rcases List.mem_append.mp hmem with hmem2 | hmem2
        · exact Or.inl hmem2
        · exact Or.inr (List.mem_cons.mpr (Or.inl (List.mem_singleton.mp hmem2)))
      · exact Or.inr (List.mem_cons_of_mem l hmem)

lemma foldl_add_count (L : List Licenza) :
    ∀ a : Int, L.foldl (fun acc l => acc + countGiorniLicenza l) a =
      a + (L.map countGiorniLicenza).sum := by
  induction L with
  | nil => intro a; simp
  | cons l t ih =>
    intro a
    rw [List.foldl_cons, ih (a + countGiorniLicenza l)]
    simp [add_assoc]

/-- C7: annual leave-balance projection.  For a nonempty year key, the
remaining balance equals the configured allowance minus the spec-side total:
the sum over deduplicated approved ordinary leaves starting in the year of
the inclusive calendar-day counts (1 day when no end date); and the request
spanning 2025-06-10 to 2025-06-12 contributes exactly 3 days. -/
theorem annual_leave_projection (ls : List Licenza) (allowance : Int)
    (year : String) (hy : year ≠ "") :
    giorniRimanenti allowance ls year = allowance - specUsedDays ls year ∧
    countGiorniLicenza ⟨"ordinaria", "2025-06-10", some "2025-06-12", "Approvata"⟩ = 3 := by
  constructor
  · rw [giorniRimanenti, specUsedDays, giorniUsati, foldl_add_count, zero_add]
    congr 1
    have hmapeq :
        (dedupByDataInizio (licenzeOrdinarieAnno ls year)).map countGiorniLicenza =
        (dedupByDataInizio (licenzeOrdinarieAnno ls year)).map inclusiveDayCount := by
      apply List.map_congr_left
      intro l hl
      apply countGiorniLicenza_eq_inclusive
      intro hempty
      have hmem := dedupByDataInizio_mem (licenzeOrdinarieAnno ls year) l hl
      have hpred := List.of_mem_filter hmem
      simp only [Bool.and_eq_true] at hpred
      have hsw := hpred.2
      rw [hempty, strStartsWith_empty_false year hy] at hsw
      cases hsw
    rw [hmapeq]
  · decide

/-- C7 (witness): with one approved ordinary leave spanning 2025-06-10 to
2025-06-12 and a 32-day allowance for year 2025, the remaining balance is the
allowance minus the spec-side sum, which evaluates to 32 − 3 = 29. -/
theorem annual_leave_projection_witness :
    giorniRimanenti 32 [⟨"ordinaria", "2025-06-10", some "2025-06-12", "Approvata"⟩]
        "2025" =
      32 - specUsedDays [⟨"ordinaria", "2025-06-10", some "2025-06-12", "Approvata"⟩]
        "2025" ∧
    giorniRimanenti 32 [⟨"ordinaria", "2025-06-10", some "2025-06-12", "Approvata"⟩]
        "2025" = 29 := by
  have h := annual_leave_projection
    [⟨"ordinaria", "2025-06-10", some "2025-06-12", "Approvata"⟩] 32 "2025"
    (by decide)
  exact ⟨h.1, by decide⟩

/-- Model of `Math.round(x * 100) / 100` (two-decimal rounding;
`Math.round` rounds halves toward positive infinity, i.e. `⌊x + 1/2⌋`). -/
def round2 (x : ℚ) : ℚ :=
  ((⌊x * 100 + 1/2⌋ : ℤ) : ℚ) / 100

/-- Translation of the minute computation of `saveManualEntry`
(src/docs/app.js lines 927-937): minutes from start to end, adding 24 hours
to the end when it is earlier than the start (shift across midnight).  The
arguments are the `split(':').map(Number)` parse of the two `HH:MM` form
fields. -/
def durataMinuti (hI mI hF mF : Nat) : ℤ :=
  let minutiInizio : ℤ := hI * 60 + mI
  let minutiFine : ℤ := hF * 60 + mF
  (if minutiFine < minutiInizio then minutiFine + 24 * 60 else minutiFine) - minutiInizio

/-- Translation of `durataOre = (minutiFine - minutiInizio) / 60`. -/
def durataOre (hI mI hF mF : Nat) : ℚ :=
  (durataMinuti hI mI hF mF : ℚ) / 60

/-- Translation of the PRESENZA branch of `saveManualEntry` (src/docs/app.js
lines 905-967): ordinary hours are `min(duration, 6)`, overtime is
`max(0, duration - 6)`, each stored rounded to two decimals, both in the
shift and in the day aggregates. -/
def presenceEntry (dateStr dettaglio nowIso oraInizio oraFine : String)
    (hI mI hF mF : Nat) : Giornata :=
  let d := durataOre hI mI hF mF
  let oreOrdinarie := min d 6
  let oreStraordinario := max 0 (d - 6)
  { data := some dateStr,
    turni := [{
      id := dateStr ++ "_manual", tipo := "PRESENZA", dettaglio := some dettaglio,
      matricola := "000000", data := dateStr,
      ora_inizio := oraInizio, ora_fine := oraFine,
      durata_ore := round2 d,
      is_straordinario := decide (0 < oreStraordinario),
      ore_ordinarie := round2 oreOrdinarie,
      ore_straordinario := round2 oreStraordinario,
      email_date := nowIso, email_id := "manual_entry", stato := "attivo" }],
    ore_totali := round2 d,
    ore_ordinarie := round2 oreOrdinarie,
    ore_straordinario := round2 oreStraordinario,
    is_licenza := false, tipo_licenza := "", isManual := true }

lemma floor_half_eq_zero : (⌊(1/2 : ℚ)⌋ : ℤ) = 0 := by
  rw [Int.floor_eq_zero_iff, Set.mem_Ico]
  constructor <;> norm_num

/-- Two-decimal rounding distributes over the ordinary/overtime split: the
rounded pieces add up to the rounded total exactly. -/
lemma round2_split (d : ℚ) :
    round2 (min d 6) + round2 (max 0 (d - 6)) = round2 d := by
  rcases le_or_lt d 6 with hle | hlt
  · rw [min_eq_left hle, max_eq_left (by linarith : d - 6 ≤ 0)]
    have h0 : round2 (0 : ℚ) = 0 := by
      rw [round2]
      norm_num [floor_half_eq_zero]
    rw [h0, add_zero]
  · rw [min_eq_right (le_of_lt hlt), max_eq_right (by linarith : (0:ℚ) ≤ d - 6)]
    rw [round2, round2, round2]
    have e1 : (6 : ℚ) * 100 + 1/2 = (1/2 : ℚ) + ((600 : ℤ) : ℚ) := by push_cast; ring
    have e2 : (d - 6) * 100 + 1/2 = (d * 100 + 1/2) + ((-600 : ℤ) : ℚ) := by
      push_cast; ring
    rw [e1, e2, Int.floor_add_int, Int.floor_add_int, floor_half_eq_zero]
    push_cast
    ring

/-- C10: every manual PRESENZA entry stores `ore_ordinarie = round2 (min
duration 6)` and `ore_straordinario = round2 (max 0 (duration - 6))`, their
sum equals `ore_totali` exactly, and when the end time is earlier than the
start time the duration is computed with 24 hours added to the end time. -/
theorem saveManualEntry_presence_hours
    (dateStr dettaglio nowIso oraInizio oraFine : String) (hI mI hF mF : Nat) :
    (presenceEntry dateStr dettaglio nowIso oraInizio oraFine hI mI hF mF).ore_ordinarie =
      round2 (min (durataOre hI mI hF mF) 6) ∧
    (presenceEntry dateStr dettaglio nowIso oraInizio oraFine hI mI hF mF).ore_straordinario =
      round2 (max 0 (durataOre hI mI hF mF - 6)) ∧
    (presenceEntry dateStr dettaglio nowIso oraInizio oraFine hI mI hF mF).ore_ordinarie +
        (presenceEntry dateStr dettaglio nowIso oraInizio oraFine hI mI hF mF).ore_straordinario =
      (presenceEntry dateStr dettaglio nowIso oraInizio oraFine hI mI hF mF).ore_totali ∧
    (((hF : ℤ) * 60 + mF) < ((hI : ℤ) * 60 + mI) →
      durataOre hI mI hF mF =
        (((((hF : ℤ) * 60 + mF) + 24 * 60) - ((hI : ℤ) * 60 + mI) : ℤ) : ℚ) / 60) := by
  refine ⟨rfl, rfl, round2_split (durataOre hI mI hF mF), ?_⟩
  intro h
  rw [durataOre, durataMinuti]
  simp only [if_pos h]

/-- C10 (witness): a 22:00-04:00 shift crosses midnight, its duration is
computed with the 24-hour adjustment, and the stored ordinary and overtime
hours add up to the stored total. -/
theorem saveManualEntry_presence_hours_witness :
    durataOre 22 0 4 0 =
      (((((4 : ℤ) * 60 + 0) + 24 * 60) - ((22 : ℤ) * 60 + 0) : ℤ) : ℚ) / 60 ∧
    (presenceEntry "2025-01-02" "Servizio esterno" "now" "22:00" "04:00"
        22 0 4 0).ore_ordinarie +
      (presenceEntry "2025-01-02" "Servizio esterno" "now" "22:00" "04:00"
        22 0 4 0).ore_straordinario =
      (presenceEntry "2025-01-02" "Servizio esterno" "now" "22:00" "04:00"
        22 0 4 0).ore_totali := by
  have h := saveManualEntry_presence_hours "2025-01-02" "Servizio esterno" "now"
    "22:00" "04:00" 22 0 4 0
  exact ⟨h.2.2.2 (by decide), h.2.2.1⟩

/-- C9: the classifiers are total over `string | null | undefined` (the Lean
embedding is a total function on `Option String`), and on `null`/`undefined`
(`none`) and on the empty string the absence classifier returns the generic
rest fallback "Riposo" and the presence classifier returns the generic
service fallback "Servizio". -/
theorem classifiers_fallback_on_empty_or_null :
    getAssenzaAbbr none = "Riposo" ∧
    getAssenzaAbbr (some "") = "Riposo" ∧
    getPresenzaAbbr none = "Servizio" ∧
    getPresenzaAbbr (some "") = "Servizio" := by
  refine ⟨rfl, by decide, rfl, by decide⟩
